import Mathlib

/-!
# go-vhosts-environment: fingerprint matching and provisioning dispatch

A shallow embedding of `main.go`: the fingerprint extractor (`getSubstring`), the directory
matcher (`compareHashBranch`), the two provisioners (`buildNoHashBranch`, `buildHashBranch`)
and the dispatch performed by `main`.

Go strings are byte sequences; they are modelled as lists of byte values, a byte being a natural
number (the theorems hold for every such list, so for those of values below 256).  Lengths and
offsets are far below `2^63`, so Go's `int` is modelled by `Int` without wrap-around.  The
iteration order of a Go map is not fixed; the keys of the `subdirs` map are given as a list in
the order of the iteration, and a map has no key twice.  Log output is not part of the model,
except that `log.Fatal*` ends the process.
-/

namespace VHosts

/-! ## Strings -/

/-- A Go `string`: a sequence of bytes. -/
abbrev GoString := List Nat

/-- The bytes of an ASCII literal. -/
def str (s : String) : GoString := s.toList.map Char.toNat

/-- Whether `a` occurs in `s` at byte offset `i`, that is `s[i:i+len(a)] == a`. -/
def occursAt (s a : GoString) (i : Nat) : Bool := a.isPrefixOf (s.drop i)

/-- Scan of `strings.LastIndex` downwards from offset `i`: the largest offset `≤ i` at which
`a` occurs in `s`, or `-1`. -/
def lastIndexFrom (s a : GoString) : Nat → Int
  | 0 => if occursAt s a 0 then 0 else -1
  | i + 1 => if occursAt s a (i + 1) then ((i + 1 : Nat) : Int) else lastIndexFrom s a i

/-- The Go standard library `strings.LastIndex(s, a)`: the index of the last instance of `a`
in `s`, or `-1` if `a` is not present in `s` (for the empty `a` this is `len(s)`). -/
def lastIndex (s a : GoString) : Int := lastIndexFrom s a s.length

/-- The Go slice expression `s[i:]`; `none` is the run-time panic for an offset out of range. -/
def sliceFrom (s : GoString) (i : Int) : Option GoString :=
  if 0 ≤ i ∧ i ≤ (s.length : Int) then some (s.drop i.toNat) else none

/-- `getSubstring` of `main.go`; `none` stands for a run-time panic. -/
def getSubstring (value a : GoString) : Option GoString :=
  let pos := lastIndex value a
  if pos = -1 then some []
  else
    let adjustedPos := pos + (a.length : Int)
    if adjustedPos ≥ (value.length : Int) then some []
    else sliceFrom value adjustedPos

/-- The marker `"ontest-"` that `compareHashBranch` passes to `getSubstring`. -/
def ontest : GoString := str "ontest-"

/-! ## Directory matcher -/

/-- The five named results of `compareHashBranch` (`exists_` is the result `exists`). -/
structure MatchResult where
  exists_ : Bool
  index : Int
  hostCommit : GoString
  branchCommit : GoString
  matchDir : GoString
  deriving DecidableEq, Repr

/-- The `for i, v := range array` loop of `compareHashBranch`, from position `i` on, with the
current values `r` of the named results.  Leaving the loop returns the named results as they
stand. -/
def compareLoop (val : GoString) : List GoString → Nat → MatchResult → Option MatchResult
  | [], _, r => some r
  | v :: rest, i, r =>
    match getSubstring v ontest with
    | none => none
    | some hostCommit =>
      let matchDir := v
      match getSubstring val ontest with
      | none => none
      | some branchCommit =>
        if hostCommit = branchCommit then
          some { exists_ := true, index := (i : Int), hostCommit := hostCommit,
                 branchCommit := branchCommit, matchDir := matchDir }
        else
          compareLoop val rest (i + 1)
            { r with hostCommit := hostCommit, branchCommit := branchCommit,
                     matchDir := matchDir }

/-- `compareHashBranch` of `main.go`: `exists = false`, `index = -1` and the zero values of the
three strings on entry, then the loop. -/
def compareHashBranch (val : GoString) (array : List GoString) : Option MatchResult :=
  compareLoop val array 0
    { exists_ := false, index := -1, hostCommit := [], branchCommit := [], matchDir := [] }

/-! ## Effects -/

/-- A Go `error` value, by its message. -/
abbrev Err := GoString

/-- The system calls the provisioners make. -/
inductive Effect where
  | stat (path : GoString)
  | mkdir (path : GoString) (mode : Nat)
  | chdir (path : GoString)
  | exec (name : GoString) (args : List GoString)
  deriving DecidableEq, Repr

/-- The operating environment, outside the program: `filepath.Join`, and how the system answers
each call given the calls made so far. -/
structure Env where
  join : GoString → GoString → GoString
  statNotExist : List Effect → GoString → Bool
  mkdirErr : List Effect → GoString → Nat → Bool
  chdirErr : List Effect → GoString → Option Err
  exitCode : List Effect → GoString → List GoString → Int

/-- How a computation ends: normally, by `log.Fatal*` (exit status 1), or by a run-time panic. -/
inductive Outcome (α : Type) where
  | ok (a : α)
  | fatal
  | panic
  deriving DecidableEq, Repr

/-- A computation over the list of system calls made so far. -/
def Prog (α : Type) : Type := List Effect → Outcome α × List Effect

/-- Sequencing: a fatal exit or a panic ends the process. -/
def Prog.bind {α β : Type} (m : Prog α) (f : α → Prog β) : Prog β := fun t =>
  match m t with
  | (Outcome.ok a, t1) => f a t1
  | (Outcome.fatal, t1) => (Outcome.fatal, t1)
  | (Outcome.panic, t1) => (Outcome.panic, t1)

instance : Monad Prog where
  pure a := fun t => (Outcome.ok a, t)
  bind := Prog.bind

/-- `createDirectory` of `main.go`. -/
def createDirectory (env : Env) (path : GoString) (mode : Nat) : Prog Unit := fun t =>
  let t1 := t ++ [Effect.stat path]
  if env.statNotExist t path then
    let t2 := t1 ++ [Effect.mkdir path mode]
    if env.mkdirErr t1 path mode then (Outcome.fatal, t2) else (Outcome.ok (), t2)
  else (Outcome.ok (), t1)

/-- `runCommand` of `main.go`: a non-zero exit code (also the default one of a command that
could not be started) is fatal.  The three results are ignored by every caller and are not
returned here. -/
def runCommand (env : Env) (name : GoString) (args : List GoString) : Prog Unit := fun t =>
  let t1 := t ++ [Effect.exec name args]
  if env.exitCode t name args ≠ 0 then (Outcome.fatal, t1) else (Outcome.ok (), t1)

/-- The call `os.Chdir(path)`, returning its error (`none` is `nil`). -/
def chdir (env : Env) (path : GoString) : Prog (Option Err) := fun t =>
  (Outcome.ok (env.chdirErr t path), t ++ [Effect.chdir path])

/-- The call `strings.Split(s, sep)` for a one-byte separator. -/
def split (sep : Nat) : GoString → List GoString
  | [] => [[]]
  | c :: cs =>
    if c = sep then [] :: split sep cs
    else
      match split sep cs with
      | [] => [[c]]
      | w :: ws => (c :: w) :: ws

/-- The loop `for _, command := range commands` of `buildCmdProject` and `buildCmdSubdir`. -/
def runEach (env : Env) : List GoString → Prog Unit
  | [] => pure ()
  | command :: rest => do
    runCommand env (str "bash") [str "-c", str "echo %s", command]
    runEach env rest

/-- `buildCmdProject` of `main.go`. -/
def buildCmdProject (env : Env) (cmd commit : GoString) : Prog (List GoString) := do
  let commands := split 44 cmd
  runCommand env (str "bash") [str "-c", str "echo git fetch --prune origin"]
  runCommand env (str "bash") [str "-c", str "echo git checkout " ++ commit]
  runEach env commands
  pure commands

/-- `buildCmdSubdir` of `main.go`. -/
def buildCmdSubdir (env : Env) (cmd : GoString) : Prog (List GoString) := do
  let commands := split 44 cmd
  runEach env commands
  pure commands

/-- `gitInitBranch` of `main.go`. -/
def gitInitBranch (env : Env) (branch repo commit : GoString) : Prog Unit := do
  runCommand env (str "bash") [str "-c", str "echo git init"]
  runCommand env (str "bash")
    [str "-c", str "echo git remote add -t " ++ branch ++ str " -f origin " ++ repo]
  runCommand env (str "bash") [str "-c", str "echo git checkout " ++ commit]

/-! ## Provisioners -/

/-- The configuration object: `GetString`, and the keys of `GetStringMapString("subdirs")` in
the order in which the `range` statement visits them. -/
structure Conf where
  getString : GoString → GoString
  subdirs : List GoString

/-- A loop `for dir := range subdirs` whose body may `return err`: the body yields `some err`
for such a return and `none` when it runs to its end. -/
def rangeSubdirs (body : GoString → Prog (Option Err)) : List GoString → Prog (Option Err)
  | [] => pure none
  | dir :: rest => do
    match ← body dir with
    | some err => pure (some err)
    | none => rangeSubdirs body rest

/-- `buildNoHashBranch` of `main.go`. -/
def buildNoHashBranch (env : Env) (projectName refSlug repoURL commitSHA : GoString)
    (conf : Conf) : Prog (Option Err) := do
  let branchPath := env.join (conf.getString (str "hostdir")) refSlug
  let subdirProject := env.join branchPath projectName
  let subdirs := conf.subdirs
  let action := conf.getString (str "subdirs." ++ projectName ++ str ".action")
  createDirectory env branchPath 0o750
  createDirectory env (env.join branchPath projectName) 0o750
  rangeSubdirs (fun dir => do
    if dir = projectName then
      match ← chdir env subdirProject with
      | some err => pure (some err)
      | none =>
        gitInitBranch env refSlug repoURL commitSHA
        let _ ← buildCmdProject env action commitSHA
        pure none
    else
      let subdirOther := env.join branchPath dir
      let actionOther := conf.getString (str "subdirs." ++ dir ++ str ".action")
      let repo := conf.getString (str "subdirs." ++ dir ++ str ".repo")
      match ← chdir env branchPath with
      | some err => pure (some err)
      | none =>
        runCommand env (str "bash") [str "-c", str "echo git clone " ++ repo]
        match ← chdir env subdirOther with
        | some err => pure (some err)
        | none =>
          let _ ← buildCmdSubdir env actionOther
          pure none) subdirs

/-- `buildHashBranch` of `main.go`. -/
def buildHashBranch (env : Env) (projectName refSlug matchDir repoURL commitSHA : GoString)
    (exists_ : Bool) (conf : Conf) : Prog (Option Err) := do
  let branchPath := env.join (conf.getString (str "hostdir")) refSlug
  let matchPath := env.join (conf.getString (str "hostdir")) matchDir
  let subdirProject := env.join branchPath projectName
  let matchSubdirProject := env.join matchPath projectName
  let subdirs := conf.subdirs
  let action := conf.getString (str "subdirs." ++ projectName ++ str ".action")
  if exists_ ≠ true then
    createDirectory env branchPath 0o750
    createDirectory env (env.join branchPath projectName) 0o750
    rangeSubdirs (fun dir => do
      if dir = projectName then
        match ← chdir env subdirProject with
        | some err => pure (some err)
        | none =>
          gitInitBranch env refSlug repoURL commitSHA
          let _ ← buildCmdProject env action commitSHA
          pure none
      else
        let subdirOther := env.join branchPath dir
        let actionOther := conf.getString (str "subdirs." ++ dir ++ str ".action")
        let repo := conf.getString (str "subdirs." ++ dir ++ str ".repo")
        match ← chdir env branchPath with
        | some err => pure (some err)
        | none =>
          runCommand env (str "bash") [str "-c", str "echo git clone " ++ repo]
          match ← chdir env subdirOther with
          | some err => pure (some err)
          | none =>
            let _ ← buildCmdSubdir env actionOther
            pure none) subdirs
  else
    rangeSubdirs (fun dir => do
      if dir = projectName then
        match ← chdir env matchSubdirProject with
        | some err => pure (some err)
        | none =>
          let _ ← buildCmdProject env action commitSHA
          pure none
      else pure none) subdirs

/-! ## Dispatch in `main` -/

/-- The arm of `switch branchCommitSHA` that is taken: `case ""`, `case hostCommitSHA`, or
`default`.  Go tries the cases in order and takes the first equal one. -/
inductive Arm where
  | empty
  | hostCommitSHA
  | default
  deriving DecidableEq, Repr

/-- The provisioning call `main` makes, with its arguments, or `noCall` when no case of the
inner `switch *projectName` applies. -/
inductive Call where
  | buildNoHashBranch (projectName refSlug repoURL commitSHA : GoString)
  | buildHashBranch (projectName refSlug matchDir repoURL commitSHA : GoString) (exists_ : Bool)
  | noCall
  deriving DecidableEq, Repr

/-- Evaluation of `switch branchCommitSHA { case "": … case hostCommitSHA: … default: … }`. -/
def switchArm (branchCommitSHA hostCommitSHA : GoString) : Arm :=
  if branchCommitSHA = [] then Arm.empty
  else if branchCommitSHA = hostCommitSHA then Arm.hostCommitSHA
  else Arm.default

/-- The inner `switch *projectName`, whose four cases all make the same call. -/
def switchProjectName (projectName : GoString) (call : Call) : Call :=
  if projectName = str "directoryA" then call
  else if projectName = str "directoryB" then call
  else if projectName = str "directoryC" then call
  else if projectName = str "directoryD" then call
  else Call.noCall

/-- The part of `main` after the directory listing `dirs` is read: the arm taken and the call
made.  `none` is a panic inside `compareHashBranch`. -/
def dispatch (projectName refSlug ciRepositoryURL commitSHA : GoString) (dirs : List GoString) :
    Option (Arm × Call) :=
  match compareHashBranch refSlug dirs with
  | none => none
  | some r =>
    match switchArm r.branchCommit r.hostCommit with
    | Arm.empty =>
      some (Arm.empty, switchProjectName projectName
        (Call.buildNoHashBranch projectName refSlug ciRepositoryURL commitSHA))
    | Arm.hostCommitSHA =>
      some (Arm.hostCommitSHA, switchProjectName projectName
        (Call.buildHashBranch projectName refSlug r.matchDir ciRepositoryURL commitSHA r.exists_))
    | Arm.default =>
      some (Arm.default, switchProjectName projectName
        (Call.buildHashBranch projectName refSlug r.matchDir ciRepositoryURL commitSHA r.exists_))

/-- Carrying out the call selected by `dispatch`; a returned error is fatal (`log.Fatalf`). -/
def runCall (env : Env) (conf : Conf) : Call → Prog Unit
  | Call.buildNoHashBranch projectName refSlug repoURL commitSHA => do
    match ← buildNoHashBranch env projectName refSlug repoURL commitSHA conf with
    | some _ => fun t => (Outcome.fatal, t)
    | none => pure ()
  | Call.buildHashBranch projectName refSlug matchDir repoURL commitSHA exists_ => do
    match ← buildHashBranch env projectName refSlug matchDir repoURL commitSHA exists_ conf with
    | some _ => fun t => (Outcome.fatal, t)
    | none => pure ()
  | Call.noCall => pure ()

/-- The body of `main` from the call of `compareHashBranch` on, given the parsed flags, the
loaded configuration and the directory listing. -/
def mainBody (env : Env) (conf : Conf) (projectName refSlug ciRepositoryURL commitSHA : GoString)
    (dirs : List GoString) : Prog Unit :=
  match dispatch projectName refSlug ciRepositoryURL commitSHA dirs with
  | none => fun t => (Outcome.panic, t)
  | some (_, call) => runCall env conf call

/-- From the history `t`, the computation `m` makes system calls that form an initial part of
`expected`, and all of `expected` when it ends normally. -/
def Performs {α : Type} (m : Prog α) (t expected : List Effect) : Prop :=
  ∃ done, (m t).2 = t ++ done ∧ done <+: expected ∧
    ∀ a, (m t).1 = Outcome.ok a → done = expected

/-- The system calls of the reuse path on a match, in order: the change of working directory
to `<hostdir>/<matchDir>/<projectName>`, the fetch, the checkout of the commit, and one command
for each part of the primary project's action string, split on commas. -/
def reuseCalls (env : Env) (conf : Conf) (projectName matchDir commitSHA : GoString) :
    List Effect :=
  Effect.chdir (env.join (env.join (conf.getString (str "hostdir")) matchDir) projectName) ::
  Effect.exec (str "bash") [str "-c", str "echo git fetch --prune origin"] ::
  Effect.exec (str "bash") [str "-c", str "echo git checkout " ++ commitSHA] ::
  (split 44 (conf.getString (str "subdirs." ++ projectName ++ str ".action"))).map
    (fun c => Effect.exec (str "bash") [str "-c", str "echo %s", c])

/-! ## A concrete environment and configuration -/

/-- An environment in which every call succeeds, no directory exists yet, and paths are joined
with a slash. -/
def exampleEnv : Env where
  join a b := a ++ str "/" ++ b
  statNotExist _ _ := true
  mkdirErr _ _ _ := false
  chdirErr _ _ := none
  exitCode _ _ _ := 0

/-- A configuration with host directory `/srv/hosts`, two subdirectories, and the action
`make,make install` for `directoryA`. -/
def exampleConf : Conf where
  getString key :=
    if key = str "hostdir" then str "/srv/hosts"
    else if key = str "subdirs.directoryA.action" then str "make,make install"
    else if key = str "subdirs.directoryB.action" then str "make"
    else if key = str "subdirs.directoryB.repo" then str "git@host:b.git"
    else []
  subdirs := [str "directoryB", str "directoryA"]

/-! ## Facts about `lastIndex` and `getSubstring` -/

theorem occursAt_iff (s a : GoString) (i : Nat) :
    occursAt s a i = true ↔ ∃ t, s.drop i = a ++ t := by
  unfold occursAt
  rw [ List.isPrefixOf_iff_prefix]
  constructor
  · rintro ⟨t, ht⟩
    exact ⟨t, ht.symm⟩
  · rintro ⟨t, ht⟩
    exact ⟨t, ht.symm⟩

theorem occursAt_of_append (pre a suf : GoString) :
    occursAt (pre ++ a ++ suf) a pre.length = true := by
  rw [occursAt_iff]
  exact ⟨suf, by simp⟩

theorem lastIndexFrom_cases (s a : GoString) (n : Nat) :
    (lastIndexFrom s a n = -1 ∧ ∀ i, i ≤ n → occursAt s a i = false) ∨
    (∃ p : Nat, p ≤ n ∧ lastIndexFrom s a n = (p : Int) ∧ occursAt s a p = true ∧
      ∀ i, p < i → i ≤ n → occursAt s a i = false) := by
  induction n with
  | zero =>
    unfold lastIndexFrom
    by_cases h : occursAt s a 0 = true
    · right
      refine ⟨0, le_refl 0, by simp [h], h, ?_⟩
      intro i hi hi0
      omega
    · left
      refine ⟨by simp [h], ?_⟩
      intro i hi
      have : i = 0 := by omega
      subst this
      simpa using h
  | succ n ih =>
    unfold lastIndexFrom
    by_cases h : occursAt s a (n + 1) = true
    · right
      refine ⟨n + 1, le_refl _, by simp [h], h, ?_⟩
      intro i hi hi0
      omega
    · have hf : occursAt s a (n + 1) = false := by simpa using h
      rcases ih with ⟨h1, h2⟩ | ⟨p, hp, h1, h2, h3⟩
      · left
        refine ⟨by simp [hf, h1], ?_⟩
        intro i hi
        by_cases hi2 : i = n + 1
        · subst hi2
          exact hf
        · exact h2 i (by omega)
      · right
        refine ⟨p, by omega, by simp [hf, h1], h2, ?_⟩
        intro i hpi hi
        by_cases hi2 : i = n + 1
        · subst hi2
          exact hf
        · exact h3 i hpi (by omega)

theorem getSubstring_of_absent (s a : GoString) (h : lastIndex s a = -1) :
    getSubstring s a = some [] := by
  simp [getSubstring, h]

theorem getSubstring_of_last (s a : GoString) (p : Nat)
    (h : lastIndex s a = (p : Int)) : getSubstring s a = some (s.drop (p + a.length)) := by
  unfold getSubstring
  simp only [h]
  have hne : ¬ ((p : Int) = -1) := by omega
  rw [if_neg hne]
  by_cases hge : (p : Int) + (a.length : Int) ≥ (s.length : Int)
  · rw [if_pos hge]
    have : s.length ≤ p + a.length := by omega
    rw [ List.drop_eq_nil_of_le this]
  · rw [if_neg hge]
    unfold sliceFrom
    have h2 : 0 ≤ (p : Int) + (a.length : Int) ∧ (p : Int) + (a.length : Int) ≤ (s.length : Int) := by
      omega
    rw [if_pos h2]
    have h3 : ((p : Int) + (a.length : Int)).toNat = p + a.length := by omega
    rw [h3]

/-- What `getSubstring` computes, for every input: either `a` occurs nowhere in `s` and the
result is empty, or the result is what follows the occurrence of `a` at the largest offset. -/
theorem getSubstring_cases (s a : GoString) :
    (getSubstring s a = some [] ∧ ∀ i, i ≤ s.length → occursAt s a i = false) ∨
    (∃ p : Nat, p + a.length ≤ s.length ∧ getSubstring s a = some (s.drop (p + a.length)) ∧
      s = s.take p ++ a ++ s.drop (p + a.length) ∧
      ∀ i, p < i → i ≤ s.length → occursAt s a i = false) := by
  rcases lastIndexFrom_cases s a s.length with ⟨h1, h2⟩ | ⟨p, hp, h1, h2, h3⟩
  · left
    exact ⟨getSubstring_of_absent s a h1, h2⟩
  · right
    obtain ⟨t, ht⟩ := (occursAt_iff s a p).1 h2
    have hlen : s.length - p = a.length + t.length := by
      have := congrArg List.length ht
      simpa using this
    have hdrop : s.drop (p + a.length) = t := by
      rw [← List.drop_drop, ht]
      simp
    refine ⟨p, by omega, getSubstring_of_last s a p h1, ?_, h3⟩
    rw [hdrop, List.append_assoc, ← ht, List.take_append_drop]

theorem getSubstring_total (s a : GoString) : ∃ r, getSubstring s a = some r := by
  rcases getSubstring_cases s a with ⟨h, _⟩ | ⟨p, _, h, _⟩
  · exact ⟨_, h⟩
  · exact ⟨_, h⟩

theorem occursAt_of_infix (s a : GoString) (h : a <:+: s) :
    ∃ i, i ≤ s.length ∧ occursAt s a i = true := by
  obtain ⟨pre, suf, hs⟩ := h
  refine ⟨pre.length, ?_, ?_⟩
  · rw [← hs]
    simp
  · rw [← hs]
    exact occursAt_of_append pre a suf

/-- The contract of `getSubstring`, as a lemma for the proofs below. -/
theorem getSubstring_contract (value a : GoString) :
    ∃ r, getSubstring value a = some r ∧
      (¬ a <:+: value → r = []) ∧
      (a <:+ value → r = []) ∧
      (a <:+: value → ∃ pre, value = pre ++ a ++ r ∧
        ∀ pre' suf', value = pre' ++ a ++ suf' → pre'.length ≤ pre.length) := by
  rcases getSubstring_cases value a with ⟨h, hno⟩ | ⟨p, hp, h, hsplit, hlast⟩
  · refine ⟨[], h, fun _ => rfl, fun _ => rfl, ?_⟩
    intro hin
    obtain ⟨i, hi, hocc⟩ := occursAt_of_infix value a hin
    rw [hno i hi] at hocc
    exact absurd hocc (by simp)
  · refine ⟨_, h, ?_, ?_, ?_⟩
    · intro hnot
      exact absurd ⟨_, _, hsplit.symm⟩ hnot
    · rintro ⟨q, hq⟩
      have hocc : occursAt value a q.length = true := by
        have := occursAt_of_append q a []
        rw [ List.append_nil, hq] at this
        exact this
      have hqlen : q.length + a.length = value.length := by
        rw [← hq]
        simp
      have hle : q.length ≤ p := by
        by_contra hlt
        have := hlast q.length (by omega) (by omega)
        rw [this] at hocc
        exact absurd hocc (by simp)
      exact List.drop_eq_nil_of_le (by omega)
    · intro _
      refine ⟨value.take p, hsplit, ?_⟩
      intro pre' suf' hv
      have hocc : occursAt value a pre'.length = true := by
        have := occursAt_of_append pre' a suf'
        rw [← hv] at this
        exact this
      have hlen : pre'.length ≤ value.length := by
        have := congrArg List.length hv
        simp at this
        omega
      have hle : pre'.length ≤ p := by
        by_contra hlt
        have := hlast pre'.length (by omega) hlen
        rw [this] at hocc
        exact absurd hocc (by simp)
      rw [ List.length_take]
      omega

/-- C1: for every `value` and marker `a`, `getSubstring` does not panic; its result is empty
when `a` does not occur in `value` and when `a` is a suffix of `value`; and when `a` occurs in
`value` the result is exactly what follows the last occurrence of `a` (the occurrence that no
other occurrence starts after). -/
theorem getSubstring_after_last_occurrence (value a : GoString) :
    ∃ r, getSubstring value a = some r ∧
      (¬ a <:+: value → r = []) ∧
      (a <:+ value → r = []) ∧
      (a <:+: value → ∃ pre, value = pre ++ a ++ r ∧
        ∀ pre' suf', value = pre' ++ a ++ suf' → pre'.length ≤ pre.length) :=
  getSubstring_contract value a

/-! ## Facts about `compareHashBranch` -/

theorem exists_first_split {α : Type} (P : α → Prop) (l : List α) (h : ∃ x ∈ l, P x) :
    ∃ pre d post, l = pre ++ d :: post ∧ P d ∧ ∀ x ∈ pre, ¬ P x := by
  induction l with
  | nil =>
    obtain ⟨x, hx, _⟩ := h
    exact absurd hx (List.not_mem_nil x)
  | cons y ys ih =>
    by_cases hy : P y
    · exact ⟨[], y, ys, rfl, hy, fun x hx => absurd hx (List.not_mem_nil x)⟩
    · have h2 : ∃ x ∈ ys, P x := by
        obtain ⟨x, hx, hpx⟩ := h
        rcases List.mem_cons.1 hx with rfl | hx2
        · exact absurd hpx hy
        · exact ⟨x, hx2, hpx⟩
      obtain ⟨pre, d, post, hl, hd, hpre⟩ := ih h2
      refine ⟨y :: pre, d, post, by rw [hl]; rfl, hd, ?_⟩
      intro x hx
      rcases List.mem_cons.1 hx with rfl | hx2
      · exact hy
      · exact hpre x hx2

theorem getElem?_split {α : Type} (pre : List α) (d : α) (post : List α) :
    (pre ++ d :: post)[pre.length]? = some d := by
  rw [ List.getElem?_append_right (le_refl _)]
  simp

/-- The loop stops at the first directory whose fingerprint equals the branch fingerprint. -/
theorem compareLoop_found (val bf : GoString) (hb : getSubstring val ontest = some bf)
    (pre : List GoString) (d : GoString) (post : List GoString) (i : Nat) (r0 : MatchResult)
    (hpre : ∀ x ∈ pre, getSubstring x ontest ≠ some bf)
    (hd : getSubstring d ontest = some bf) :
    compareLoop val (pre ++ d :: post) i r0 =
      some { exists_ := true, index := ((i + pre.length : Nat) : Int), hostCommit := bf,
             branchCommit := bf, matchDir := d } := by
  induction pre generalizing i r0 with
  | nil =>
    simp [compareLoop, hb, hd]
  | cons y ys ih =>
    obtain ⟨fy, hfy⟩ := getSubstring_total y ontest
    have hne : fy ≠ bf := by
      intro heq
      exact hpre y (List.mem_cons_self y ys) (by rw [hfy, heq])
    have hys : ∀ x ∈ ys, getSubstring x ontest ≠ some bf :=
      fun x hx => hpre x (List.mem_cons_of_mem y hx)
    have := ih (i + 1) { r0 with hostCommit := fy, branchCommit := bf, matchDir := y } hys
    have hidx : i + 1 + ys.length = i + (ys.length + 1) := by omega
    rw [hidx] at this
    simp only [List.cons_append, compareLoop, hfy, hb, if_neg hne, List.length_cons]
    exact this

/-- Without a matching directory the loop runs to its end: `exists` and `index` keep their
values, and after at least one pass `branchCommit` is the branch fingerprint. -/
theorem compareLoop_not_found (val bf : GoString) (hb : getSubstring val ontest = some bf)
    (arr : List GoString) (i : Nat) (r0 : MatchResult)
    (hall : ∀ x ∈ arr, getSubstring x ontest ≠ some bf) :
    ∃ r, compareLoop val arr i r0 = some r ∧ r.exists_ = r0.exists_ ∧ r.index = r0.index ∧
      (arr = [] → r = r0) ∧ (arr ≠ [] → r.branchCommit = bf ∧ r.hostCommit ≠ bf) := by
  induction arr generalizing i r0 with
  | nil =>
    exact ⟨r0, rfl, rfl, rfl, fun _ => rfl, fun h => absurd rfl h⟩
  | cons y ys ih =>
    obtain ⟨fy, hfy⟩ := getSubstring_total y ontest
    have hne : fy ≠ bf := by
      intro heq
      exact hall y (List.mem_cons_self y ys) (by rw [hfy, heq])
    have hys : ∀ x ∈ ys, getSubstring x ontest ≠ some bf :=
      fun x hx => hall x (List.mem_cons_of_mem y hx)
    obtain ⟨r, hr, he, hi, hnil, hcons⟩ :=
      ih (i + 1) { r0 with hostCommit := fy, branchCommit := bf, matchDir := y } hys
    refine ⟨r, ?_, he, hi, fun h => absurd h (List.cons_ne_nil y ys), fun _ => ?_⟩
    · simp only [compareLoop, hfy, hb, if_neg hne, hr]
    · by_cases hnl : ys = []
      · have := hnil hnl
        rw [this]
        exact ⟨rfl, hne⟩
      · exact hcons hnl

/-- The result of `compareHashBranch`, for every input. -/
theorem compareHashBranch_cases (val : GoString) (arr : List GoString) :
    ∃ bf, getSubstring val ontest = some bf ∧
    ((∃ pre d post, arr = pre ++ d :: post ∧ getSubstring d ontest = some bf ∧
        (∀ x ∈ pre, getSubstring x ontest ≠ some bf) ∧
        compareHashBranch val arr =
          some { exists_ := true, index := (pre.length : Int), hostCommit := bf,
                 branchCommit := bf, matchDir := d }) ∨
     ((∀ x ∈ arr, getSubstring x ontest ≠ some bf) ∧
        ∃ r, compareHashBranch val arr = some r ∧ r.exists_ = false ∧ r.index = -1 ∧
          (arr = [] → r.branchCommit = [] ∧ r.hostCommit = [] ∧ r.matchDir = []) ∧
          (arr ≠ [] → r.branchCommit = bf ∧ r.hostCommit ≠ bf))) := by
  obtain ⟨bf, hb⟩ := getSubstring_total val ontest
  refine ⟨bf, hb, ?_⟩
  by_cases h : ∃ x ∈ arr, getSubstring x ontest = some bf
  · left
    obtain ⟨pre, d, post, hl, hd, hpre⟩ := exists_first_split _ arr h
    refine ⟨pre, d, post, hl, hd, hpre, ?_⟩
    unfold compareHashBranch
    rw [hl, compareLoop_found val bf hb pre d post 0 _ hpre hd]
    simp
  · right
    have hall : ∀ x ∈ arr, getSubstring x ontest ≠ some bf := by
      intro x hx heq
      exact h ⟨x, hx, heq⟩
    refine ⟨hall, ?_⟩
    obtain ⟨r, hr, he, hi, hnil, hcons⟩ := compareLoop_not_found val bf hb arr 0
      { exists_ := false, index := -1, hostCommit := [], branchCommit := [], matchDir := [] } hall
    refine ⟨r, hr, he, hi, ?_, hcons⟩
    intro hn
    rw [hnil hn]
    exact ⟨rfl, rfl, rfl⟩

/-- C2: for a branch whose fingerprint is non-empty, `compareHashBranch` reports `exists`
exactly when some listed directory has the branch's fingerprint; then `index` is the first
position of such a directory, `matchDir` the name at that position and `hostCommit` its
(non-empty) fingerprint. -/
theorem compareHashBranch_first_match (val : GoString) (array : List GoString)
    (hne : getSubstring val ontest ≠ some []) :
    ∃ r, compareHashBranch val array = some r ∧
      (r.exists_ = true ↔ ∃ d ∈ array, getSubstring d ontest = getSubstring val ontest) ∧
      (r.exists_ = true → ∃ (k : Nat) (d : GoString), array[k]? = some d ∧ r.index = (k : Int) ∧ r.matchDir = d ∧
        some r.hostCommit = getSubstring d ontest ∧ r.hostCommit ≠ [] ∧
        getSubstring d ontest = getSubstring val ontest ∧
        ∀ (j : Nat) (e : GoString), j < k → array[j]? = some e →
          getSubstring e ontest ≠ getSubstring val ontest) := by
  obtain ⟨bf, hb, hcase⟩ := compareHashBranch_cases val array
  rw [hb] at hne ⊢
  have hbf : bf ≠ [] := fun h => hne (by rw [h])
  rcases hcase with ⟨pre, d, post, hl, hd, hpre, hr⟩ | ⟨hall, r, hr, he, _, _, _⟩
  · refine ⟨_, hr, ?_, ?_⟩
    · constructor
      · intro _
        exact ⟨d, by rw [hl]; simp, hd⟩
      · intro _
        rfl
    · intro _
      refine ⟨pre.length, d, by rw [hl]; exact getElem?_split pre d post, rfl, rfl, hd.symm, hbf, hd, ?_⟩
      intro j e hj hje
      rw [hl, List.getElem?_append_left hj] at hje
      exact hpre e (List.getElem?_mem hje)
  · refine ⟨r, hr, ?_, ?_⟩
    · rw [he]
      constructor
      · intro h
        exact absurd h (by simp)
      · rintro ⟨d, hd, hfd⟩
        exact absurd hfd (hall d hd)
    · rw [he]
      intro h
      exact absurd h (by simp)

/-- C2, on the listing `["b1-ontest-aaaa1111", "b2-ontest-bbbb2222"]` and the branch
`"feature-ontest-bbbb2222"`: the second directory is the match. -/
theorem compareHashBranch_first_match_witness :
    compareHashBranch (str "feature-ontest-bbbb2222")
        [str "b1-ontest-aaaa1111", str "b2-ontest-bbbb2222"] =
      some { exists_ := true, index := 1, hostCommit := str "bbbb2222",
             branchCommit := str "bbbb2222", matchDir := str "b2-ontest-bbbb2222" } ∧
    ∃ r, compareHashBranch (str "feature-ontest-bbbb2222")
        [str "b1-ontest-aaaa1111", str "b2-ontest-bbbb2222"] = some r ∧
      (r.exists_ = true ↔ ∃ d ∈ [str "b1-ontest-aaaa1111", str "b2-ontest-bbbb2222"],
        getSubstring d ontest = getSubstring (str "feature-ontest-bbbb2222") ontest) ∧
      (r.exists_ = true → ∃ (k : Nat) (d : GoString),
        [str "b1-ontest-aaaa1111", str "b2-ontest-bbbb2222"][k]? = some d ∧
        r.index = (k : Int) ∧ r.matchDir = d ∧
        some r.hostCommit = getSubstring d ontest ∧ r.hostCommit ≠ [] ∧
        getSubstring d ontest = getSubstring (str "feature-ontest-bbbb2222") ontest ∧
        ∀ (j : Nat) (e : GoString), j < k → [str "b1-ontest-aaaa1111", str "b2-ontest-bbbb2222"][j]? = some e →
          getSubstring e ontest ≠ getSubstring (str "feature-ontest-bbbb2222") ontest) :=
  ⟨by decide,
   compareHashBranch_first_match (str "feature-ontest-bbbb2222")
     [str "b1-ontest-aaaa1111", str "b2-ontest-bbbb2222"] (by decide)⟩

/-- C3, refuted as stated: the branch `"feature-no-marker"` has the empty fingerprint, and
against the listing `["plain-dir"]` `compareHashBranch` returns `exists = true`. -/
theorem compareHashBranch_empty_matches_empty :
    getSubstring (str "feature-no-marker") ontest = some [] ∧
    compareHashBranch (str "feature-no-marker") [str "plain-dir"] =
      some { exists_ := true, index := 0, hostCommit := [], branchCommit := [],
             matchDir := str "plain-dir" } := by
  decide

/-- C3, amended: for a branch whose fingerprint is empty, `compareHashBranch` returns
`exists = false` exactly when every listed directory has a non-empty fingerprint; otherwise it
returns `exists = true` at the first directory whose own fingerprint is empty. -/
theorem compareHashBranch_empty_fingerprint (val : GoString) (array : List GoString)
    (h : getSubstring val ontest = some []) :
    ∃ r, compareHashBranch val array = some r ∧
      (r.exists_ = false ↔ ∀ d ∈ array, getSubstring d ontest ≠ some []) ∧
      (r.exists_ = true → ∃ (k : Nat) (d : GoString), array[k]? = some d ∧ r.index = (k : Int) ∧ r.matchDir = d ∧
        r.hostCommit = [] ∧ getSubstring d ontest = some [] ∧
        ∀ (j : Nat) (e : GoString), j < k → array[j]? = some e → getSubstring e ontest ≠ some []) := by
  obtain ⟨bf, hb, hcase⟩ := compareHashBranch_cases val array
  rw [h] at hb
  have hbf : bf = [] := by
    cases hb
    rfl
  subst hbf
  rcases hcase with ⟨pre, d, post, hl, hd, hpre, hr⟩ | ⟨hall, r, hr, he, _, _, _⟩
  · refine ⟨_, hr, ?_, ?_⟩
    · constructor
      · intro hfalse
        exact absurd hfalse (by simp)
      · intro hallne
        exact absurd hd (hallne d (by rw [hl]; simp))
    · intro _
      refine ⟨pre.length, d, by rw [hl]; exact getElem?_split pre d post, rfl, rfl, rfl, hd, ?_⟩
      intro j e hj hje
      rw [hl, List.getElem?_append_left hj] at hje
      exact hpre e (List.getElem?_mem hje)
  · refine ⟨r, hr, ?_, ?_⟩
    · constructor
      · intro _
        exact hall
      · intro _
        exact he
    · rw [he]
      intro hx
      exact absurd hx (by simp)

/-- C3, amended, on the branch `"feature-no-marker"` and the listing
`["b1-ontest-aaaa1111"]`: no directory has an empty fingerprint and nothing matches. -/
theorem compareHashBranch_empty_fingerprint_witness :
    getSubstring (str "feature-no-marker") ontest = some [] ∧
    ∃ r, compareHashBranch (str "feature-no-marker") [str "b1-ontest-aaaa1111"] = some r ∧
      (r.exists_ = false ↔
        ∀ d ∈ [str "b1-ontest-aaaa1111"], getSubstring d ontest ≠ some []) ∧
      (r.exists_ = true → ∃ (k : Nat) (d : GoString), [str "b1-ontest-aaaa1111"][k]? = some d ∧
        r.index = (k : Int) ∧ r.matchDir = d ∧
        r.hostCommit = [] ∧ getSubstring d ontest = some [] ∧
        ∀ (j : Nat) (e : GoString), j < k → [str "b1-ontest-aaaa1111"][j]? = some e →
          getSubstring e ontest ≠ some []) :=
  ⟨by decide,
   compareHashBranch_empty_fingerprint (str "feature-no-marker") [str "b1-ontest-aaaa1111"]
     (by decide)⟩

/-- C7: when exactly one listed directory `d` has the branch's (non-empty) fingerprint, every
reordering of the listing yields `exists = true`, `matchDir = d` and `hostCommit` the
fingerprint of `d`. -/
theorem compareHashBranch_unique_match_perm (val d : GoString) (arr arr' : List GoString)
    (hne : getSubstring val ontest ≠ some [])
    (hd : d ∈ arr) (hfp : getSubstring d ontest = getSubstring val ontest)
    (huniq : ∀ x ∈ arr, getSubstring x ontest = getSubstring val ontest → x = d)
    (hperm : arr'.Perm arr) :
    ∃ r, compareHashBranch val arr' = some r ∧ r.exists_ = true ∧ r.matchDir = d ∧
      some r.hostCommit = getSubstring d ontest ∧ r.hostCommit ≠ [] := by
  obtain ⟨bf, hb, hcase⟩ := compareHashBranch_cases val arr'
  rw [hb] at hne hfp huniq
  have hbf : bf ≠ [] := fun h => hne (by rw [h])
  rcases hcase with ⟨pre, e, post, hl, he, _, hr⟩ | ⟨hall, _⟩
  · have hmem : e ∈ arr := hperm.subset (by rw [hl]; simp)
    have hed : e = d := huniq e hmem he
    subst hed
    exact ⟨_, hr, rfl, rfl, he.symm, hbf⟩
  · exact absurd hfp (hall d (hperm.symm.subset hd))

/-- C7, on the listing `["b1-ontest-aaaa1111", "b2-ontest-bbbb2222"]` reversed. -/
theorem compareHashBranch_unique_match_perm_witness :
    ∃ r, compareHashBranch (str "feature-ontest-bbbb2222")
        [str "b2-ontest-bbbb2222", str "b1-ontest-aaaa1111"] = some r ∧
      r.exists_ = true ∧ r.matchDir = str "b2-ontest-bbbb2222" ∧
      some r.hostCommit = getSubstring (str "b2-ontest-bbbb2222") ontest ∧
      r.hostCommit ≠ [] :=
  compareHashBranch_unique_match_perm (str "feature-ontest-bbbb2222")
    (str "b2-ontest-bbbb2222")
    [str "b1-ontest-aaaa1111", str "b2-ontest-bbbb2222"]
    [str "b2-ontest-bbbb2222", str "b1-ontest-aaaa1111"]
    (by decide) (by decide) (by decide) (by decide) (List.Perm.swap _ _ _)

/-! ## Re-extraction -/

/-- C8, refuted as stated: `"abcd"` is extracted from `"x-ontest-abcd"`, the marker does not
occur in `"abcd"`, and extracting again returns the empty string, not `"abcd"`. -/
theorem reextraction_returns_empty :
    getSubstring (str "x-ontest-abcd") ontest = some (str "abcd") ∧
    ¬ ontest <:+: str "abcd" ∧
    getSubstring (str "abcd") ontest = some [] ∧
    getSubstring (str "abcd") ontest ≠ some (str "abcd") := by
  refine ⟨by decide, ?_, by decide, by decide⟩
  intro hin
  obtain ⟨i, hi, hocc⟩ := occursAt_of_infix (str "abcd") ontest hin
  have hi4 : i ≤ 4 := hi
  have hall : ∀ j, j ≤ 4 → occursAt (str "abcd") ontest j = false := by decide
  rw [hall i hi4] at hocc
  exact absurd hocc (by simp)

/-- C8, amended: when the marker `m` does not occur in the extracted fragment `f`, extracting
again from `f` returns the empty string; the result equals `f` only when `f` is empty. -/
theorem getSubstring_reextract (s m f : GoString) (_hf : getSubstring s m = some f)
    (hno : ¬ m <:+: f) :
    getSubstring f m = some [] ∧ (getSubstring f m = some f ↔ f = []) := by
  obtain ⟨r, hr, hnil, _, _⟩ := getSubstring_contract f m
  have hr0 : r = [] := hnil hno
  subst hr0
  refine ⟨hr, ?_⟩
  rw [hr]
  constructor
  · intro h
    cases h
    rfl
  · intro h
    rw [h]

/-- C8, amended, on `"x-ontest-abcd"`. -/
theorem getSubstring_reextract_witness :
    getSubstring (str "abcd") ontest = some [] ∧
    (getSubstring (str "abcd") ontest = some (str "abcd") ↔ str "abcd" = []) :=
  getSubstring_reextract (str "x-ontest-abcd") ontest (str "abcd") (by decide)
    (by
      intro hin
      obtain ⟨i, hi, hocc⟩ := occursAt_of_infix (str "abcd") ontest hin
      have hi4 : i ≤ 4 := hi
      have hall : ∀ j, j ≤ 4 → occursAt (str "abcd") ontest j = false := by decide
      rw [hall i hi4] at hocc
      exact absurd hocc (by simp))

/-! ## Facts about the dispatch -/

/-- The four project names the inner `switch` knows. -/
theorem switchProjectName_of_mem (projectName : GoString) (call : Call)
    (h : projectName ∈ [str "directoryA", str "directoryB", str "directoryC",
      str "directoryD"]) : switchProjectName projectName call = call := by
  unfold switchProjectName
  simp only [List.mem_cons, List.mem_singleton, List.not_mem_nil, or_false] at h
  rcases h with h | h | h | h <;> simp [h]

theorem switchProjectName_of_not_mem (projectName : GoString) (call : Call)
    (h : projectName ∉ [str "directoryA", str "directoryB", str "directoryC",
      str "directoryD"]) : switchProjectName projectName call = Call.noCall := by
  unfold switchProjectName
  simp only [List.mem_cons, List.mem_singleton, List.not_mem_nil, or_false, not_or] at h
  obtain ⟨h1, h2, h3, h4⟩ := h
  simp [h1, h2, h3, h4]

theorem dispatch_of_branchCommit_nil (projectName refSlug url sha : GoString)
    (dirs : List GoString) (r : MatchResult) (hr : compareHashBranch refSlug dirs = some r)
    (hb : r.branchCommit = []) :
    dispatch projectName refSlug url sha dirs =
      some (Arm.empty, switchProjectName projectName
        (Call.buildNoHashBranch projectName refSlug url sha)) := by
  have harm : switchArm r.branchCommit r.hostCommit = Arm.empty := by
    unfold switchArm
    rw [if_pos hb]
  simp [dispatch, hr, harm]

theorem dispatch_of_branchCommit_eq (projectName refSlug url sha : GoString)
    (dirs : List GoString) (r : MatchResult) (hr : compareHashBranch refSlug dirs = some r)
    (hb : r.branchCommit ≠ []) (he : r.branchCommit = r.hostCommit) :
    dispatch projectName refSlug url sha dirs =
      some (Arm.hostCommitSHA, switchProjectName projectName
        (Call.buildHashBranch projectName refSlug r.matchDir url sha r.exists_)) := by
  have harm : switchArm r.branchCommit r.hostCommit = Arm.hostCommitSHA := by
    unfold switchArm
    rw [if_neg hb, if_pos he]
  simp [dispatch, hr, harm]

theorem dispatch_of_branchCommit_ne (projectName refSlug url sha : GoString)
    (dirs : List GoString) (r : MatchResult) (hr : compareHashBranch refSlug dirs = some r)
    (hb : r.branchCommit ≠ []) (he : r.branchCommit ≠ r.hostCommit) :
    dispatch projectName refSlug url sha dirs =
      some (Arm.default, switchProjectName projectName
        (Call.buildHashBranch projectName refSlug r.matchDir url sha r.exists_)) := by
  have harm : switchArm r.branchCommit r.hostCommit = Arm.default := by
    unfold switchArm
    rw [if_neg hb, if_neg he]
  simp [dispatch, hr, harm]

/-- The three possible results of `dispatch`, for every input. -/
theorem dispatch_cases (projectName refSlug url sha : GoString) (dirs : List GoString) :
    ∃ r, compareHashBranch refSlug dirs = some r ∧
      ((r.branchCommit = [] ∧ dispatch projectName refSlug url sha dirs =
          some (Arm.empty, switchProjectName projectName
            (Call.buildNoHashBranch projectName refSlug url sha))) ∨
       (r.branchCommit ≠ [] ∧ r.branchCommit = r.hostCommit ∧
          dispatch projectName refSlug url sha dirs =
            some (Arm.hostCommitSHA, switchProjectName projectName
              (Call.buildHashBranch projectName refSlug r.matchDir url sha r.exists_))) ∨
       (r.branchCommit ≠ [] ∧ r.branchCommit ≠ r.hostCommit ∧
          dispatch projectName refSlug url sha dirs =
            some (Arm.default, switchProjectName projectName
              (Call.buildHashBranch projectName refSlug r.matchDir url sha r.exists_)))) := by
  obtain ⟨bf, _, hcase⟩ := compareHashBranch_cases refSlug dirs
  have hex : ∃ r, compareHashBranch refSlug dirs = some r := by
    rcases hcase with ⟨_, _, _, _, _, _, hr⟩ | ⟨_, r, hr, _⟩
    · exact ⟨_, hr⟩
    · exact ⟨r, hr⟩
  obtain ⟨r, hr⟩ := hex
  refine ⟨r, hr, ?_⟩
  by_cases hb : r.branchCommit = []
  · exact Or.inl ⟨hb, dispatch_of_branchCommit_nil _ _ _ _ _ r hr hb⟩
  · by_cases he : r.branchCommit = r.hostCommit
    · exact Or.inr (Or.inl ⟨hb, he, dispatch_of_branchCommit_eq _ _ _ _ _ r hr hb he⟩)
    · exact Or.inr (Or.inr ⟨hb, he, dispatch_of_branchCommit_ne _ _ _ _ _ r hr hb he⟩)

/-- On a non-empty listing the arm taken by `main` follows the branch's own fingerprint: `case ""`
when it is empty, `case hostCommitSHA` with `exists = true` when it is non-empty and some
directory has it, `default` with `exists = false` when it is non-empty and no directory has
it. -/
theorem dispatch_of_nonempty_listing (projectName refSlug url sha : GoString)
    (dirs : List GoString) (hdirs : dirs ≠ []) :
    (getSubstring refSlug ontest = some [] →
      dispatch projectName refSlug url sha dirs =
        some (Arm.empty, switchProjectName projectName
          (Call.buildNoHashBranch projectName refSlug url sha))) ∧
    (getSubstring refSlug ontest ≠ some [] →
      (∃ d ∈ dirs, getSubstring d ontest = getSubstring refSlug ontest) →
      ∃ matchDir, dispatch projectName refSlug url sha dirs =
        some (Arm.hostCommitSHA, switchProjectName projectName
          (Call.buildHashBranch projectName refSlug matchDir url sha true))) ∧
    (getSubstring refSlug ontest ≠ some [] →
      (∀ d ∈ dirs, getSubstring d ontest ≠ getSubstring refSlug ontest) →
      ∃ matchDir, dispatch projectName refSlug url sha dirs =
        some (Arm.default, switchProjectName projectName
          (Call.buildHashBranch projectName refSlug matchDir url sha false))) := by
  obtain ⟨bf, hb, hcase⟩ := compareHashBranch_cases refSlug dirs
  rw [hb]
  refine ⟨?_, ?_, ?_⟩
  · intro hnil
    have hbf : bf = [] := by
      cases hnil
      rfl
    subst hbf
    rcases hcase with ⟨_, _, _, _, _, _, hr⟩ | ⟨_, r, hr, _, _, _, hcons⟩
    · exact dispatch_of_branchCommit_nil _ _ _ _ _ _ hr rfl
    · exact dispatch_of_branchCommit_nil _ _ _ _ _ r hr (hcons hdirs).1
  · intro hne hex
    have hbf : bf ≠ [] := fun h => hne (by rw [h])
    rcases hcase with ⟨_, d, _, _, _, _, hr⟩ | ⟨hall, _⟩
    · exact ⟨d, dispatch_of_branchCommit_eq _ _ _ _ _ _ hr hbf rfl⟩
    · obtain ⟨d, hd, hfd⟩ := hex
      exact absurd hfd (hall d hd)
  · intro hne hall
    have hbf : bf ≠ [] := fun h => hne (by rw [h])
    rcases hcase with ⟨pre, d, post, hl, hd, _, _⟩ | ⟨_, r, hr, he, _, _, hcons⟩
    · exact absurd hd (hall d (by rw [hl]; simp))
    · obtain ⟨h1, h2⟩ := hcons hdirs
      have h3 : r.branchCommit ≠ [] := by rw [h1]; exact hbf
      have h4 : r.branchCommit ≠ r.hostCommit := by
        rw [h1]
        exact fun h => h2 h.symm
      have := dispatch_of_branchCommit_ne projectName refSlug url sha dirs r hr h3 h4
      rw [he] at this
      exact ⟨r.matchDir, this⟩

/-- C4, at the empty listing: the branch `"feature-ontest-cccc3333"` has the non-empty
fingerprint `"cccc3333"`, no directory has it, and `main` takes `case ""` and calls
`buildNoHashBranch`, because `compareHashBranch` leaves `branchCommit` empty when its loop body
never runs. -/
theorem dispatch_empty_listing_takes_fresh_path :
    getSubstring (str "feature-ontest-cccc3333") ontest = some (str "cccc3333") ∧
    compareHashBranch (str "feature-ontest-cccc3333") [] =
      some { exists_ := false, index := -1, hostCommit := [], branchCommit := [],
             matchDir := [] } ∧
    dispatch (str "directoryA") (str "feature-ontest-cccc3333") (str "git@host:a.git")
        (str "0123abcd") [] =
      some (Arm.empty, Call.buildNoHashBranch (str "directoryA")
        (str "feature-ontest-cccc3333") (str "git@host:a.git") (str "0123abcd")) ∧
    dispatch (str "directoryA") (str "feature-ontest-cccc3333") (str "git@host:a.git")
        (str "0123abcd") [str "b1-ontest-aaaa1111"] =
      some (Arm.default, Call.buildHashBranch (str "directoryA")
        (str "feature-ontest-cccc3333") (str "b1-ontest-aaaa1111") (str "git@host:a.git")
        (str "0123abcd") false) := by
  decide

/-- C9: for a branch identifier in which `"ontest-"` does not occur, the fingerprint `main`
switches on is empty, `main` takes `case ""` whatever the listing is, the call for a known
project name is `buildNoHashBranch`, and no input leads to a call of `buildHashBranch`. -/
theorem dispatch_no_marker_fresh (projectName refSlug url sha : GoString)
    (dirs : List GoString) (h : ¬ ontest <:+: refSlug) :
    getSubstring refSlug ontest = some [] ∧
    (∃ r, compareHashBranch refSlug dirs = some r ∧ r.branchCommit = []) ∧
    dispatch projectName refSlug url sha dirs =
      some (Arm.empty, switchProjectName projectName
        (Call.buildNoHashBranch projectName refSlug url sha)) ∧
    (projectName ∈ [str "directoryA", str "directoryB", str "directoryC", str "directoryD"] →
      dispatch projectName refSlug url sha dirs =
        some (Arm.empty, Call.buildNoHashBranch projectName refSlug url sha)) ∧
    (∀ arm pn rs md ru cs ex, dispatch projectName refSlug url sha dirs ≠
      some (arm, Call.buildHashBranch pn rs md ru cs ex)) := by
  obtain ⟨f, hf, hnil, _, _⟩ := getSubstring_contract refSlug ontest
  have hf0 : f = [] := hnil h
  subst hf0
  obtain ⟨bf, hb, hcase⟩ := compareHashBranch_cases refSlug dirs
  rw [hf] at hb
  have hbf : bf = [] := by
    cases hb
    rfl
  subst hbf
  have hex : ∃ r, compareHashBranch refSlug dirs = some r ∧ r.branchCommit = [] := by
    rcases hcase with ⟨_, _, _, _, _, _, hr⟩ | ⟨_, r, hr, _, _, hnil2, hcons⟩
    · exact ⟨_, hr, rfl⟩
    · by_cases hd : dirs = []
      · exact ⟨r, hr, (hnil2 hd).1⟩
      · exact ⟨r, hr, (hcons hd).1⟩
  obtain ⟨r, hr, hrb⟩ := hex
  have hdisp := dispatch_of_branchCommit_nil projectName refSlug url sha dirs r hr hrb
  refine ⟨hf, ⟨r, hr, hrb⟩, hdisp, ?_, ?_⟩
  · intro hmem
    rw [hdisp, switchProjectName_of_mem _ _ hmem]
  · intro arm pn rs md ru cs ex heq
    rw [hdisp] at heq
    by_cases hmem : projectName ∈
        [str "directoryA", str "directoryB", str "directoryC", str "directoryD"]
    · rw [switchProjectName_of_mem _ _ hmem] at heq
      simp at heq
    · rw [switchProjectName_of_not_mem _ _ hmem] at heq
      simp at heq

/-- C9, on the branch `"feature-no-marker"` and the listing `["plain-dir"]`, where
`compareHashBranch` reports a match. -/
theorem dispatch_no_marker_fresh_witness :
    (∃ r, compareHashBranch (str "feature-no-marker") [str "plain-dir"] = some r ∧
      r.exists_ = true) ∧
    dispatch (str "directoryA") (str "feature-no-marker") (str "git@host:a.git")
        (str "0123abcd") [str "plain-dir"] =
      some (Arm.empty, Call.buildNoHashBranch (str "directoryA") (str "feature-no-marker")
        (str "git@host:a.git") (str "0123abcd")) :=
  ⟨⟨{ exists_ := true, index := 0, hostCommit := [], branchCommit := [],
       matchDir := str "plain-dir" }, by decide, rfl⟩,
   (dispatch_no_marker_fresh (str "directoryA") (str "feature-no-marker")
      (str "git@host:a.git") (str "0123abcd") [str "plain-dir"]
      (by
        intro hin
        obtain ⟨i, hi, hocc⟩ := occursAt_of_infix (str "feature-no-marker") ontest hin
        have hi17 : i ≤ 17 := hi
        have hall : ∀ j, j ≤ 17 → occursAt (str "feature-no-marker") ontest j = false := by
          decide
        rw [hall i hi17] at hocc
        exact absurd hocc (by simp))).2.2.2.1 (by decide)⟩

/-- C10: for a project name other than the four known ones `main` makes no provisioning call,
performs no system call and ends normally; for each of the four known names `main` selects one
call and its run is the run of that one provisioner, `buildNoHashBranch` on the flags or
`buildHashBranch` on the flags and the result of the matcher, followed by the fatal exit when
the provisioner returns an error. -/
theorem dispatch_project_name (projectName refSlug url sha : GoString)
    (dirs : List GoString) :
    (projectName ∉ [str "directoryA", str "directoryB", str "directoryC", str "directoryD"] →
      (∃ arm, dispatch projectName refSlug url sha dirs = some (arm, Call.noCall)) ∧
      ∀ env conf t, mainBody env conf projectName refSlug url sha dirs t = (Outcome.ok (), t)) ∧
    (projectName ∈ [str "directoryA", str "directoryB", str "directoryC", str "directoryD"] →
      ∃ arm call, dispatch projectName refSlug url sha dirs = some (arm, call) ∧
        ((call = Call.buildNoHashBranch projectName refSlug url sha ∧
            ∀ env conf t, mainBody env conf projectName refSlug url sha dirs t =
              Prog.bind (buildNoHashBranch env projectName refSlug url sha conf)
                (fun err =>
                  match err with
                  | some _ => fun t1 => (Outcome.fatal, t1)
                  | none => pure ()) t) ∨
          ∃ matchDir ex, call = Call.buildHashBranch projectName refSlug matchDir url sha ex ∧
            ∀ env conf t, mainBody env conf projectName refSlug url sha dirs t =
              Prog.bind (buildHashBranch env projectName refSlug matchDir url sha ex conf)
                (fun err =>
                  match err with
                  | some _ => fun t1 => (Outcome.fatal, t1)
                  | none => pure ()) t) ∧
        ∀ env conf, mainBody env conf projectName refSlug url sha dirs =
          runCall env conf call) := by
  obtain ⟨r, _, hcase⟩ := dispatch_cases projectName refSlug url sha dirs
  constructor
  · intro hmem
    have hno : ∀ c, switchProjectName projectName c = Call.noCall :=
      fun c => switchProjectName_of_not_mem projectName c hmem
    have hex : ∃ arm, dispatch projectName refSlug url sha dirs = some (arm, Call.noCall) := by
      rcases hcase with ⟨_, hd⟩ | ⟨_, _, hd⟩ | ⟨_, _, hd⟩
      · exact ⟨_, by rw [hd, hno]⟩
      · exact ⟨_, by rw [hd, hno]⟩
      · exact ⟨_, by rw [hd, hno]⟩
    obtain ⟨arm, harm⟩ := hex
    refine ⟨⟨arm, harm⟩, ?_⟩
    intro env conf t
    unfold mainBody
    rw [harm]
    rfl
  · intro hmem
    have hyes : ∀ c, switchProjectName projectName c = c :=
      fun c => switchProjectName_of_mem projectName c hmem
    rcases hcase with ⟨_, hd⟩ | ⟨_, _, hd⟩ | ⟨_, _, hd⟩
    · rw [hyes] at hd
      refine ⟨_, _, hd, Or.inl ⟨rfl, ?_⟩, ?_⟩
      · intro env conf t
        unfold mainBody
        rw [hd]
        rfl
      · intro env conf
        unfold mainBody
        rw [hd]
    · rw [hyes] at hd
      refine ⟨_, _, hd, Or.inr ⟨_, _, rfl, ?_⟩, ?_⟩
      · intro env conf t
        unfold mainBody
        rw [hd]
        rfl
      · intro env conf
        unfold mainBody
        rw [hd]
    · rw [hyes] at hd
      refine ⟨_, _, hd, Or.inr ⟨_, _, rfl, ?_⟩, ?_⟩
      · intro env conf t
        unfold mainBody
        rw [hd]
        rfl
      · intro env conf
        unfold mainBody
        rw [hd]

/-- C10, on the project names `"directoryE"` (unknown) and `"directoryA"`, `"directoryB"`
(known), the branch `"feature-ontest-bbbb2222"` and the listing `["b2-ontest-bbbb2222"]`: for
`"directoryE"` nothing is selected and nothing is run, for `"directoryB"` the call of
`buildHashBranch` is selected, and for `"directoryA"` the run of `main` makes the calls of
`buildHashBranch` on the match. -/
theorem dispatch_project_name_witness :
    dispatch (str "directoryE") (str "feature-ontest-bbbb2222") (str "git@host:a.git")
        (str "0123abcd") [str "b2-ontest-bbbb2222"] = some (Arm.hostCommitSHA, Call.noCall) ∧
    dispatch (str "directoryB") (str "feature-ontest-bbbb2222") (str "git@host:a.git")
        (str "0123abcd") [str "b2-ontest-bbbb2222"] =
      some (Arm.hostCommitSHA, Call.buildHashBranch (str "directoryB")
        (str "feature-ontest-bbbb2222") (str "b2-ontest-bbbb2222") (str "git@host:a.git")
        (str "0123abcd") true) ∧
    mainBody exampleEnv exampleConf (str "directoryA") (str "feature-ontest-bbbb2222")
        (str "git@host:a.git") (str "0123abcd") [str "b2-ontest-bbbb2222"] [] =
      (Outcome.ok (),
       [Effect.chdir (str "/srv/hosts/b2-ontest-bbbb2222/directoryA"),
        Effect.exec (str "bash") [str "-c", str "echo git fetch --prune origin"],
        Effect.exec (str "bash") [str "-c", str "echo git checkout 0123abcd"],
        Effect.exec (str "bash") [str "-c", str "echo %s", str "make"],
        Effect.exec (str "bash") [str "-c", str "echo %s", str "make install"]]) ∧
    (∃ arm, dispatch (str "directoryE") (str "feature-ontest-bbbb2222") (str "git@host:a.git")
        (str "0123abcd") [str "b2-ontest-bbbb2222"] = some (arm, Call.noCall)) ∧
    mainBody exampleEnv exampleConf (str "directoryE") (str "feature-ontest-bbbb2222")
        (str "git@host:a.git") (str "0123abcd") [str "b2-ontest-bbbb2222"] [] =
      (Outcome.ok (), []) :=
  ⟨by decide, by decide, by decide,
   ((dispatch_project_name (str "directoryE") (str "feature-ontest-bbbb2222")
      (str "git@host:a.git") (str "0123abcd") [str "b2-ontest-bbbb2222"]).1 (by decide)).1,
   ((dispatch_project_name (str "directoryE") (str "feature-ontest-bbbb2222")
      (str "git@host:a.git") (str "0123abcd") [str "b2-ontest-bbbb2222"]).1 (by decide)).2
        exampleEnv exampleConf []⟩

/-! ## Facts about the provisioners -/

/-- C5: called with `exists = false`, `buildHashBranch` is the same computation as
`buildNoHashBranch` on the same project name, branch directory name, repository URL, commit
and configuration: from every history of system calls, in every environment, both make the
same system calls in the same order and end the same way, whatever `matchDir` is. -/
theorem buildHashBranch_unmatched_eq_buildNoHashBranch (env : Env)
    (projectName refSlug matchDir repoURL commitSHA : GoString) (conf : Conf) :
    buildHashBranch env projectName refSlug matchDir repoURL commitSHA false conf =
      buildNoHashBranch env projectName refSlug repoURL commitSHA conf := by
  unfold buildHashBranch buildNoHashBranch
  simp

theorem bind_run {α β : Type} (m : Prog α) (f : α → Prog β) (t : List Effect) :
    (m >>= f) t = Prog.bind m f t := rfl

theorem pure_run {α : Type} (a : α) (t : List Effect) :
    (pure a : Prog α) t = (Outcome.ok a, t) := rfl

theorem Prog.bind_ok {α β : Type} (m : Prog α) (f : α → Prog β) (t t1 : List Effect) (a : α)
    (h : m t = (Outcome.ok a, t1)) : Prog.bind m f t = f a t1 := by
  unfold Prog.bind
  rw [h]

theorem Prog.bind_fatal {α β : Type} (m : Prog α) (f : α → Prog β) (t t1 : List Effect)
    (h : m t = (Outcome.fatal, t1)) : Prog.bind m f t = (Outcome.fatal, t1) := by
  unfold Prog.bind
  rw [h]

theorem Prog.bind_panic {α β : Type} (m : Prog α) (f : α → Prog β) (t t1 : List Effect)
    (h : m t = (Outcome.panic, t1)) : Prog.bind m f t = (Outcome.panic, t1) := by
  unfold Prog.bind
  rw [h]

theorem performs_pure {α : Type} (a : α) (t : List Effect) :
    Performs (pure a : Prog α) t [] :=
  ⟨[], by simp [pure_run], List.prefix_refl _, fun _ _ => rfl⟩

theorem performs_bind {α β : Type} (m : Prog α) (f : α → Prog β) (t e1 e2 : List Effect)
    (h1 : Performs m t e1)
    (h2 : ∀ a, (m t).1 = Outcome.ok a → Performs (f a) (t ++ e1) e2) :
    Performs (m >>= f) t (e1 ++ e2) := by
  obtain ⟨d1, ht1, hp1, hc1⟩ := h1
  rcases hmt : m t with ⟨o, t1⟩
  rw [hmt] at ht1 hc1
  simp only at ht1 hc1
  subst ht1
  cases o with
  | ok a =>
    have hd1 : d1 = e1 := hc1 a rfl
    subst hd1
    obtain ⟨d2, ht2, hp2, hc2⟩ := h2 a (by rw [hmt])
    unfold Performs
    rw [bind_run, Prog.bind_ok m f t _ a hmt]
    refine ⟨d1 ++ d2, by rw [ht2, List.append_assoc], ?_, ?_⟩
    · exact (List.prefix_append_right_inj d1).2 hp2
    · intro b hb
      rw [hc2 b hb]
  | fatal =>
    unfold Performs
    rw [bind_run, Prog.bind_fatal m f t _ hmt]
    refine ⟨d1, rfl, hp1.trans (List.prefix_append e1 e2), ?_⟩
    intro b hb
    cases hb
  | panic =>
    unfold Performs
    rw [bind_run, Prog.bind_panic m f t _ hmt]
    refine ⟨d1, rfl, hp1.trans (List.prefix_append e1 e2), ?_⟩
    intro b hb
    cases hb

theorem performs_runCommand (env : Env) (name : GoString) (args : List GoString)
    (t : List Effect) : Performs (runCommand env name args) t [Effect.exec name args] := by
  refine ⟨[Effect.exec name args], ?_, List.prefix_refl _, fun _ _ => rfl⟩
  unfold runCommand
  dsimp only
  split_ifs <;> rfl

theorem performs_runEach (env : Env) (commands : List GoString) (t : List Effect) :
    Performs (runEach env commands) t
      (commands.map (fun c => Effect.exec (str "bash") [str "-c", str "echo %s", c])) := by
  induction commands generalizing t with
  | nil => exact performs_pure () t
  | cons c rest ih =>
    exact performs_bind _ _ t [_] _ (performs_runCommand env _ _ t) (fun _ _ => ih _)

theorem performs_buildCmdProject (env : Env) (cmd commit : GoString) (t : List Effect) :
    Performs (buildCmdProject env cmd commit) t
      (Effect.exec (str "bash") [str "-c", str "echo git fetch --prune origin"] ::
       Effect.exec (str "bash") [str "-c", str "echo git checkout " ++ commit] ::
       (split 44 cmd).map (fun c => Effect.exec (str "bash") [str "-c", str "echo %s", c])) := by
  have h := performs_bind (runCommand env (str "bash") [str "-c", str "echo git fetch --prune origin"])
    (fun _ => (runCommand env (str "bash") [str "-c", str "echo git checkout " ++ commit] >>=
      fun _ => (runEach env (split 44 cmd) >>= fun _ => (pure (split 44 cmd) : Prog _))))
    t [_] _ (performs_runCommand env _ _ t)
    (fun _ _ => performs_bind _ _ _ [_] _ (performs_runCommand env _ _ _)
      (fun _ _ => performs_bind _ _ _ _ _ (performs_runEach env _ _)
        (fun _ _ => performs_pure _ _)))
  simpa using h

theorem runCommand_ok (env : Env) (name : GoString) (args : List GoString) (t : List Effect)
    (h : env.exitCode t name args = 0) :
    runCommand env name args t = (Outcome.ok (), t ++ [Effect.exec name args]) := by
  unfold runCommand
  simp [h]

theorem runEach_ok (env : Env) (hexit : ∀ h n a, env.exitCode h n a = 0)
    (commands : List GoString) (t : List Effect) :
    runEach env commands t = (Outcome.ok (), t ++ commands.map
      (fun c => Effect.exec (str "bash") [str "-c", str "echo %s", c])) := by
  induction commands generalizing t with
  | nil => simp [runEach, pure_run]
  | cons c rest ih =>
    unfold runEach
    rw [bind_run, Prog.bind_ok _ _ t _ () (runCommand_ok env _ _ t (hexit _ _ _)), ih]
    simp

theorem buildCmdProject_ok (env : Env) (hexit : ∀ h n a, env.exitCode h n a = 0)
    (cmd commit : GoString) (t : List Effect) :
    buildCmdProject env cmd commit t = (Outcome.ok (split 44 cmd), t ++
      (Effect.exec (str "bash") [str "-c", str "echo git fetch --prune origin"] ::
       Effect.exec (str "bash") [str "-c", str "echo git checkout " ++ commit] ::
       (split 44 cmd).map
         (fun c => Effect.exec (str "bash") [str "-c", str "echo %s", c]))) := by
  unfold buildCmdProject
  rw [bind_run, Prog.bind_ok _ _ t _ () (runCommand_ok env _ _ t (hexit _ _ _))]
  rw [bind_run, Prog.bind_ok _ _ _ _ () (runCommand_ok env _ _ _ (hexit _ _ _))]
  rw [bind_run, Prog.bind_ok _ _ _ _ () (runEach_ok env hexit _ _)]
  simp [pure_run]

theorem chdir_run (env : Env) (path : GoString) (t : List Effect) :
    chdir env path t = (Outcome.ok (env.chdirErr t path), t ++ [Effect.chdir path]) := rfl

theorem rangeSubdirs_cons (body : GoString → Prog (Option Err)) (dir : GoString)
    (rest : List GoString) (t : List Effect) :
    rangeSubdirs body (dir :: rest) t =
      Prog.bind (body dir) (fun r =>
        match r with
        | some err => pure (some err)
        | none => rangeSubdirs body rest) t := rfl

/-- A loop whose body does nothing for every key but `p` does nothing when `p` is not a key. -/
theorem rangeSubdirs_absent (body : GoString → Prog (Option Err)) (p : GoString)
    (hother : ∀ dir t, dir ≠ p → body dir t = (Outcome.ok none, t))
    (l : List GoString) (hp : p ∉ l) (t : List Effect) :
    rangeSubdirs body l t = (Outcome.ok none, t) := by
  induction l with
  | nil => rfl
  | cons dir rest ih =>
    have hne : dir ≠ p := fun h => hp (by rw [h]; exact List.mem_cons_self _ _)
    have hrest : p ∉ rest := fun h => hp (List.mem_cons_of_mem _ h)
    rw [rangeSubdirs_cons, Prog.bind_ok _ _ t t none (hother dir t hne)]
    exact ih hrest

/-- Over distinct keys, such a loop is one run of the body on `p` when `p` is a key. -/
theorem rangeSubdirs_present (body : GoString → Prog (Option Err)) (p : GoString)
    (hother : ∀ dir t, dir ≠ p → body dir t = (Outcome.ok none, t))
    (l : List GoString) (hnd : l.Nodup) (hp : p ∈ l) (t : List Effect) :
    rangeSubdirs body l t = body p t := by
  induction l with
  | nil => exact absurd hp (List.not_mem_nil p)
  | cons dir rest ih =>
    have hnd2 := List.nodup_cons.1 hnd
    by_cases hdir : dir = p
    · subst hdir
      rw [rangeSubdirs_cons]
      rcases hb : body dir t with ⟨o, t1⟩
      cases o with
      | ok r =>
        rw [ Prog.bind_ok _ _ t t1 r hb]
        cases r with
        | none => exact rangeSubdirs_absent body dir hother rest hnd2.1 t1
        | some err => rfl
      | fatal => rw [ Prog.bind_fatal _ _ t t1 hb]
      | panic => rw [ Prog.bind_panic _ _ t t1 hb]
    · have hrest : p ∈ rest := by
        rcases List.mem_cons.1 hp with h | h
        · exact absurd h.symm hdir
        · exact h
      rw [rangeSubdirs_cons, Prog.bind_ok _ _ t t none (hother dir t hdir)]
      exact ih hnd2.2 hrest

theorem append_ne_of_take_ne (n : Nat) (a b rest : GoString) (hn : n ≤ a.length)
    (h : a.take n ≠ b.take n) : a ++ rest ≠ b := by
  intro heq
  apply h
  rw [← heq, List.take_append_of_le_length hn]

theorem clone_ne_fetch (repo : GoString) :
    str "echo git clone " ++ repo ≠ str "echo git fetch --prune origin" :=
  append_ne_of_take_ne 10 _ _ repo (by decide) (by decide)

theorem clone_ne_checkout (repo commit : GoString) :
    str "echo git clone " ++ repo ≠ str "echo git checkout " ++ commit := by
  intro heq
  have h := congrArg (List.take 11) heq
  rw [ List.take_append_of_le_length (by decide), List.take_append_of_le_length (by decide)] at h
  exact absurd h (by decide)

theorem init_ne_checkout (commit : GoString) :
    str "echo git init" ≠ str "echo git checkout " ++ commit :=
  fun h => append_ne_of_take_ne 10 _ _ commit (by decide) (by decide) h.symm

theorem remote_ne_fetch (rest : GoString) :
    str "echo git remote add -t " ++ rest ≠ str "echo git fetch --prune origin" :=
  append_ne_of_take_ne 10 _ _ rest (by decide) (by decide)

theorem remote_ne_checkout (rest commit : GoString) :
    str "echo git remote add -t " ++ rest ≠ str "echo git checkout " ++ commit := by
  intro heq
  have h := congrArg (List.take 10) heq
  rw [ List.take_append_of_le_length (by decide), List.take_append_of_le_length (by decide)] at h
  exact absurd h (by decide)

theorem mem_reuseCalls (env : Env) (conf : Conf) (projectName matchDir commitSHA : GoString)
    (e : Effect) (he : e ∈ reuseCalls env conf projectName matchDir commitSHA) :
    e = Effect.chdir
        (env.join (env.join (conf.getString (str "hostdir")) matchDir) projectName) ∨
    e = Effect.exec (str "bash") [str "-c", str "echo git fetch --prune origin"] ∨
    e = Effect.exec (str "bash") [str "-c", str "echo git checkout " ++ commitSHA] ∨
    ∃ c ∈ split 44 (conf.getString (str "subdirs." ++ projectName ++ str ".action")),
      e = Effect.exec (str "bash") [str "-c", str "echo %s", c] := by
  unfold reuseCalls at he
  simp only [List.mem_cons, List.mem_map] at he
  rcases he with h | h | h | ⟨c, hc, h⟩
  · exact Or.inl h
  · exact Or.inr (Or.inl h)
  · exact Or.inr (Or.inr (Or.inl h))
  · exact Or.inr (Or.inr (Or.inr ⟨c, hc, h.symm⟩))

/-- The body of the loop of the reuse path on a match, run for the primary project. -/
theorem reuse_body_run (env : Env) (conf : Conf) (projectName matchDir commitSHA : GoString)
    (t : List Effect) :
    ∃ done,
      ((chdir env (env.join (env.join (conf.getString (str "hostdir")) matchDir) projectName)
        >>= fun r =>
          match r with
          | some err => (pure (some err) : Prog (Option Err))
          | none =>
            buildCmdProject env
              (conf.getString (str "subdirs." ++ projectName ++ str ".action")) commitSHA
            >>= fun _ => pure none) t).2 = t ++ done ∧
      done <+: reuseCalls env conf projectName matchDir commitSHA := by
  rw [bind_run, Prog.bind_ok _ _ t _ _ (chdir_run env _ t)]
  cases env.chdirErr t
      (env.join (env.join (conf.getString (str "hostdir")) matchDir) projectName) with
  | some err =>
    refine ⟨[_], rfl, ?_⟩
    unfold reuseCalls
    exact ⟨_, rfl⟩
  | none =>
    obtain ⟨d, hd, hp, _⟩ := performs_bind _ (fun _ => (pure none : Prog (Option Err))) _ _ []
      (performs_buildCmdProject env
        (conf.getString (str "subdirs." ++ projectName ++ str ".action")) commitSHA
        (t ++ [Effect.chdir
          (env.join (env.join (conf.getString (str "hostdir")) matchDir) projectName)]))
      (fun _ _ => performs_pure _ _)
    refine ⟨Effect.chdir
      (env.join (env.join (conf.getString (str "hostdir")) matchDir) projectName) :: d, ?_, ?_⟩
    · simp only []
      rw [hd]
      simp
    · unfold reuseCalls
      rw [ List.append_nil] at hp
      exact (List.prefix_cons_inj _).2 hp

theorem reuse_body_ok (env : Env) (conf : Conf) (projectName matchDir commitSHA : GoString)
    (hchdir : ∀ h p, env.chdirErr h p = none) (hexit : ∀ h n a, env.exitCode h n a = 0)
    (t : List Effect) :
    (chdir env (env.join (env.join (conf.getString (str "hostdir")) matchDir) projectName)
      >>= fun r =>
        match r with
        | some err => (pure (some err) : Prog (Option Err))
        | none =>
          buildCmdProject env
            (conf.getString (str "subdirs." ++ projectName ++ str ".action")) commitSHA
          >>= fun _ => pure none) t =
      (Outcome.ok none, t ++ reuseCalls env conf projectName matchDir commitSHA) := by
  rw [bind_run, Prog.bind_ok _ _ t _ _ (chdir_run env _ t), hchdir]
  simp only []
  rw [bind_run, Prog.bind_ok _ _ _ _ _ (buildCmdProject_ok env hexit _ _ _), pure_run]
  unfold reuseCalls
  simp

/-- C6: called with `exists = true`, `buildHashBranch` makes, in every environment and from
every history, an initial part of the calls `reuseCalls` (one change of working directory to
`<hostdir>/<matchDir>/<projectName>`, then the fetch, the checkout of `commitSHA` and the
primary project's action commands in their order) and all of them when the primary project is
configured and no call fails; it never creates or examines a directory, never changes to another
directory, never clones and never initialises a repository, and does nothing at all when the
primary project is not among the configured subdirectories. -/
theorem buildHashBranch_matched_effects (env : Env)
    (projectName refSlug matchDir repoURL commitSHA : GoString) (conf : Conf)
    (hnodup : conf.subdirs.Nodup) (t : List Effect) :
    ∃ done,
      (buildHashBranch env projectName refSlug matchDir repoURL commitSHA true conf t).2 =
        t ++ done ∧
      done <+: reuseCalls env conf projectName matchDir commitSHA ∧
      (∀ p m, Effect.mkdir p m ∉ done) ∧ (∀ p, Effect.stat p ∉ done) ∧
      (∀ p, Effect.chdir p ∈ done →
        p = env.join (env.join (conf.getString (str "hostdir")) matchDir) projectName) ∧
      (∀ repo, Effect.exec (str "bash") [str "-c", str "echo git clone " ++ repo] ∉ done) ∧
      (Effect.exec (str "bash") [str "-c", str "echo git init"] ∉ done) ∧
      (∀ branch repo, Effect.exec (str "bash")
        [str "-c", str "echo git remote add -t " ++ branch ++ str " -f origin " ++ repo]
          ∉ done) ∧
      (projectName ∉ conf.subdirs → done = []) ∧
      (projectName ∈ conf.subdirs → (∀ h p, env.chdirErr h p = none) →
        (∀ h n a, env.exitCode h n a = 0) →
        buildHashBranch env projectName refSlug matchDir repoURL commitSHA true conf t =
          (Outcome.ok none, t ++ reuseCalls env conf projectName matchDir commitSHA)) := by
  have hother : ∀ dir t, dir ≠ projectName →
      (fun dir : GoString =>
        if dir = projectName then
          chdir env (env.join (env.join (conf.getString (str "hostdir")) matchDir) projectName)
            >>= fun r =>
              match r with
              | some err => (pure (some err) : Prog (Option Err))
              | none =>
                buildCmdProject env
                  (conf.getString (str "subdirs." ++ projectName ++ str ".action")) commitSHA
                >>= fun _ => pure none
        else pure none) dir t = (Outcome.ok none, t) := by
    intro dir t hne
    simp only [if_neg hne]
    rfl
  have hframe : ∀ done : List Effect,
      done <+: reuseCalls env conf projectName matchDir commitSHA →
      (∀ p m, Effect.mkdir p m ∉ done) ∧ (∀ p, Effect.stat p ∉ done) ∧
      (∀ p, Effect.chdir p ∈ done →
        p = env.join (env.join (conf.getString (str "hostdir")) matchDir) projectName) ∧
      (∀ repo, Effect.exec (str "bash") [str "-c", str "echo git clone " ++ repo] ∉ done) ∧
      (Effect.exec (str "bash") [str "-c", str "echo git init"] ∉ done) ∧
      (∀ branch repo, Effect.exec (str "bash")
        [str "-c", str "echo git remote add -t " ++ branch ++ str " -f origin " ++ repo]
          ∉ done) := by
    intro done hpre
    have hmem := fun e (he : e ∈ done) =>
      mem_reuseCalls env conf projectName matchDir commitSHA e (hpre.subset he)
    refine ⟨?_, ?_, ?_, ?_, ?_, ?_⟩
    · intro p m he
      rcases hmem _ he with h | h | h | ⟨c, _, h⟩ <;> cases h
    · intro p he
      rcases hmem _ he with h | h | h | ⟨c, _, h⟩ <;> cases h
    · intro p he
      rcases hmem _ he with h | h | h | ⟨c, _, h⟩
      · cases h
        rfl
      · cases h
      · cases h
      · cases h
    · intro repo he
      rcases hmem _ he with h | h | h | ⟨c, _, h⟩
      · cases h
      · injection h with _ h2
        injection h2 with _ h3
        injection h3 with h4 _
        exact clone_ne_fetch repo h4
      · injection h with _ h2
        injection h2 with _ h3
        injection h3 with h4 _
        exact clone_ne_checkout repo commitSHA h4
      · injection h with _ h2
        injection h2 with _ h3
        injection h3 with _ h5
        cases h5
    · intro he
      rcases hmem _ he with h | h | h | ⟨c, _, h⟩
      · cases h
      · injection h with _ h2
        injection h2 with _ h3
        injection h3 with h4 _
        exact absurd h4 (by decide)
      · injection h with _ h2
        injection h2 with _ h3
        injection h3 with h4 _
        exact init_ne_checkout commitSHA h4
      · injection h with _ h2
        injection h2 with _ h3
        injection h3 with _ h5
        cases h5
    · intro branch repo he
      rcases hmem _ he with h | h | h | ⟨c, _, h⟩
      · cases h
      · injection h with _ h2
        injection h2 with _ h3
        injection h3 with h4 _
        rw [ List.append_assoc, List.append_assoc] at h4
        exact remote_ne_fetch _ h4
      · injection h with _ h2
        injection h2 with _ h3
        injection h3 with h4 _
        rw [ List.append_assoc, List.append_assoc] at h4
        exact remote_ne_checkout _ commitSHA h4
      · injection h with _ h2
        injection h2 with _ h3
        injection h3 with _ h5
        cases h5
  have hunfold : buildHashBranch env projectName refSlug matchDir repoURL commitSHA true conf t =
      rangeSubdirs (fun dir : GoString =>
        if dir = projectName then
          chdir env (env.join (env.join (conf.getString (str "hostdir")) matchDir) projectName)
            >>= fun r =>
              match r with
              | some err => (pure (some err) : Prog (Option Err))
              | none =>
                buildCmdProject env
                  (conf.getString (str "subdirs." ++ projectName ++ str ".action")) commitSHA
                >>= fun _ => pure none
        else pure none) conf.subdirs t := by
    unfold buildHashBranch
    simp only [ne_eq, not_true_eq_false, if_false]
  by_cases hmem : projectName ∈ conf.subdirs
  · have hrun := rangeSubdirs_present _ projectName hother conf.subdirs hnodup hmem t
    simp only [if_pos rfl] at hrun
    obtain ⟨done, hd, hp⟩ := reuse_body_run env conf projectName matchDir commitSHA t
    obtain ⟨f1, f2, f3, f4, f5, f6⟩ := hframe done hp
    refine ⟨done, ?_, hp, f1, f2, f3, f4, f5, f6, fun h => absurd hmem h, ?_⟩
    · rw [hunfold, hrun]
      exact hd
    · intro _ hchdir hexit
      rw [hunfold, hrun]
      exact reuse_body_ok env conf projectName matchDir commitSHA hchdir hexit t
  · have hrun := rangeSubdirs_absent _ projectName hother conf.subdirs hmem t
    obtain ⟨f1, f2, f3, f4, f5, f6⟩ := hframe [] List.nil_prefix
    refine ⟨[], ?_, List.nil_prefix, f1, f2, f3, f4, f5, f6, fun _ => rfl,
      fun h => absurd h hmem⟩
    rw [hunfold, hrun]
    simp

/-- C6, in an environment where every call succeeds, with the subdirectories `directoryA` and
`directoryB` configured and the action `"make,make install"`: the run ends normally after
exactly the calls `reuseCalls`. -/
theorem buildHashBranch_matched_effects_witness :
    exampleConf.subdirs.Nodup ∧
    buildHashBranch exampleEnv (str "directoryA") (str "feature-ontest-bbbb2222")
        (str "b2-ontest-bbbb2222") (str "git@host:a.git") (str "0123abcd") true exampleConf [] =
      (Outcome.ok none, [] ++ reuseCalls exampleEnv exampleConf (str "directoryA")
        (str "b2-ontest-bbbb2222") (str "0123abcd")) :=
  ⟨by decide,
   (buildHashBranch_matched_effects exampleEnv (str "directoryA")
      (str "feature-ontest-bbbb2222") (str "b2-ontest-bbbb2222") (str "git@host:a.git")
      (str "0123abcd") exampleConf (by decide) []).elim
     (fun _ h => h.2.2.2.2.2.2.2.2.2 (by decide) (fun _ _ => rfl) (fun _ _ _ => rfl))⟩

/-! ## Evaluations on concrete inputs -/

theorem getSubstring_eval_marker :
    getSubstring (str "b2-ontest-bbbb2222") ontest = some (str "bbbb2222") := by decide

theorem getSubstring_eval_no_marker :
    getSubstring (str "feature-no-marker") ontest = some [] := by decide

theorem getSubstring_eval_marker_at_end :
    getSubstring (str "x-ontest-") ontest = some [] := by decide

theorem getSubstring_eval_two_markers :
    getSubstring (str "a-ontest-b-ontest-c") ontest = some (str "c") := by decide

theorem getSubstring_eval_empty_marker : getSubstring (str "abc") [] = some [] := by decide

theorem split_eval :
    split 44 (str "make,make install") = [str "make", str "make install"] ∧
    split 44 (str "") = [[]] ∧
    split 44 (str "a,,b,") = [str "a", [], str "b", []] := by decide

theorem reuseCalls_eval :
    reuseCalls exampleEnv exampleConf (str "directoryA") (str "b2-ontest-bbbb2222")
        (str "0123abcd") =
      [Effect.chdir (str "/srv/hosts/b2-ontest-bbbb2222/directoryA"),
       Effect.exec (str "bash") [str "-c", str "echo git fetch --prune origin"],
       Effect.exec (str "bash") [str "-c", str "echo git checkout 0123abcd"],
       Effect.exec (str "bash") [str "-c", str "echo %s", str "make"],
       Effect.exec (str "bash") [str "-c", str "echo %s", str "make install"]] := by decide

theorem buildNoHashBranch_eval :
    buildNoHashBranch exampleEnv (str "directoryA") (str "feature-no-marker")
        (str "git@host:a.git") (str "0123abcd") exampleConf [] =
      (Outcome.ok none,
       [Effect.stat (str "/srv/hosts/feature-no-marker"),
        Effect.mkdir (str "/srv/hosts/feature-no-marker") 488,
        Effect.stat (str "/srv/hosts/feature-no-marker/directoryA"),
        Effect.mkdir (str "/srv/hosts/feature-no-marker/directoryA") 488,
        Effect.chdir (str "/srv/hosts/feature-no-marker"),
        Effect.exec (str "bash") [str "-c", str "echo git clone git@host:b.git"],
        Effect.chdir (str "/srv/hosts/feature-no-marker/directoryB"),
        Effect.exec (str "bash") [str "-c", str "echo %s", str "make"],
        Effect.chdir (str "/srv/hosts/feature-no-marker/directoryA"),
        Effect.exec (str "bash") [str "-c", str "echo git init"],
        Effect.exec (str "bash")
          [str "-c", str "echo git remote add -t feature-no-marker -f origin git@host:a.git"],
        Effect.exec (str "bash") [str "-c", str "echo git checkout 0123abcd"],
        Effect.exec (str "bash") [str "-c", str "echo git fetch --prune origin"],
        Effect.exec (str "bash") [str "-c", str "echo git checkout 0123abcd"],
        Effect.exec (str "bash") [str "-c", str "echo %s", str "make"],
        Effect.exec (str "bash") [str "-c", str "echo %s", str "make install"]]) := by
  decide

end VHosts
